import Mathlib

/-!
Verification of the status/diff engine of `src/isomorphicGit.ts`
(class `IsomorphicGit`).  The pure decision logic of the source is
embedded as executable Lean definitions; external collaborators
(the isomorphic-git library's object store, `git.log`, `git.TREE`
walkers) are modelled as explicit parameters, following §6 of the
specification ("Object/Tree provider", "Working-tree/index provider").
-/

namespace IsomorphicGit

/-- Result shape of the tree diff: `DiffResult { path, type }` with
`type` one of `"equal" | "modify" | "add" | "remove"`, as produced by
`diff` in the source. -/
structure DiffResult where
  path : String
  type : String
deriving DecidableEq, Repr

/-- Result shape of the status classifier: `{ index, path }` as returned by
`getFileStatusResult`.  In TypeScript the `index` field is the result of a
JS object lookup and is `undefined` for keys missing from the table, hence
`Option String` here. -/
structure FileStatusResult where
  index : Option String
  path : String
deriving DecidableEq, Repr

/-- Return shape of `status()`: `{ changed, staged }`. -/
structure Status where
  changed : List FileStatusResult
  staged : List String
deriving DecidableEq, Repr

/-- One row of `git.statusMatrix`: `[filepath, HEAD, WORKDIR, STAGE]` where
the numeric axes are `0|1`, `0|1|2`, `0|1|2|3` respectively (modelled as
`Nat`; the table only ever consults the digit values). -/
structure StatusRow where
  file : String
  head : Nat
  workdir : Nat
  stage : Nat
deriving DecidableEq, Repr

/-- The part of isomorphic-git's `ReadCommitResult` used by the source:
the commit `oid`. -/
structure ReadCommitResult where
  oid : String
deriving DecidableEq, Repr

/-- Errors thrown by the isomorphic-git library, as inspected by the
source: `error.code` and `error.data.what`. -/
structure GitError where
  code : String
  what : String
deriving DecidableEq, Repr

/-- The fixed status-code lookup table, the `indexes` object literal of the
source (lines 15–30).  A JS property access on a key absent from the object
yields `undefined`, hence `Option String`. -/
def indexes : String → Option String
  | "000" => some ""
  | "003" => some "AD"
  | "020" => some "??"
  | "022" => some "A"
  | "023" => some "AM"
  | "100" => some "D "
  | "101" => some " D"
  | "103" => some "MD"
  | "110" => some "D ??"
  | "111" => some ""
  | "120" => some "D ??"
  | "121" => some " M"
  | "122" => some "M "
  | "123" => some "MM"
  | _ => none

/-- The 3-character key `${row[HEAD]}${row[WORKDIR]}${row[STAGE]}` built by
`getFileStatusResult`. -/
def statusKey (row : StatusRow) : String :=
  toString row.head ++ toString row.workdir ++ toString row.stage

/-- `getFileStatusResult` (source lines 299–303): looks the packed key up in
`indexes` and pairs the (possibly absent) code with the file path. -/
def getFileStatusResult (row : StatusRow) : FileStatusResult :=
  { index := indexes (statusKey row), path := row.file }

/-- The pure core of `status()` (source lines 39–58), parameterised by the
status-matrix rows supplied by the external working-tree/index provider:
`changed` keeps rows whose HEAD and WORKDIR digits differ, `staged` keeps
the paths of rows whose STAGE digit is 3 or 2. -/
def status (rows : List StatusRow) : Status :=
  { changed := (rows.filter (fun row => row.head != row.workdir)).map getFileStatusResult,
    staged := (rows.filter (fun row => row.stage == 3 || row.stage == 2)).map (·.file) }

/-- `getCurrentCommit` (source lines 305–320), parameterised by the outcome
of the external `git.log` call (`depth: 1`, newest first) and by the current
branch name obtained from `branchInfo()`: on success it takes element `[0]`
of the returned array (`undefined` when empty); on a `NotFoundError` whose
`data.what` is `refs/heads/<current>` it returns `undefined` ("no commit
yet"); every other error is rethrown. -/
def getCurrentCommit (logResult : Except GitError (List ReadCommitResult))
    (currentBranch : String) : Except GitError (Option ReadCommitResult) :=
  match logResult with
  | .ok commits => .ok commits.head?
  | .error e =>
      if e.code = "NotFoundError" ∧ e.what = "refs/heads/" ++ currentBranch then
        .ok none
      else
        .error e

/-- A git tree as exposed by the external object/tree provider
(`git.TREE({ ref })`): a directory node with named children, or a leaf
carrying its content identity (blob oid).  See spec §3 "TreeNode". -/
inductive GitTree where
  | leaf (oid : String)
  | dir (children : List (String × GitTree))

/-- Number of nodes of a tree (termination measure for the walk). -/
def tsize : GitTree → Nat
  | GitTree.leaf _ => 1
  | GitTree.dir [] => 1
  | GitTree.dir (kc :: rest) => 1 + tsize kc.2 + tsize (GitTree.dir rest)
termination_by t => sizeOf t
decreasing_by
  all_goals obtain ⟨a, t⟩ := kc
  all_goals simp
  all_goals omega

/-- Children of an optional tree node; absent nodes and leaves have none. -/
def childrenOf : Option GitTree → List (String × GitTree)
  | some (GitTree.dir cs) => cs
  | _ => []

/-- The `(await X?.type()) === 'tree'` test of the source: true exactly when
the side is present and is a directory. -/
def isTreeB : Option GitTree → Bool
  | some (GitTree.dir _) => true
  | _ => false

/-- The `await X?.oid()` of the source, restricted to the non-directory
entries that survive the tree check: a leaf yields its content identity,
an absent side yields `undefined`. -/
def oidOf : Option GitTree → Option String
  | some (GitTree.leaf o) => some o
  | _ => none

/-- Child names of a directory listing, in order. -/
def keysOf (cs : List (String × GitTree)) : List String :=
  cs.map Prod.fst

/-- The set of child names visited by the synchronized walk at a directory
level: names of side A followed by the names of side B not already present
on side A (`git.walk` unites the two trees' entries by name). -/
def unionKeys (ca cb : List (String × GitTree)) : List String :=
  keysOf ca ++ (keysOf cb).filter (fun k => !((keysOf ca).contains k))

/-- Resolve one child by name (first match, as a git tree lookup). -/
def lookupChild (k : String) (cs : List (String × GitTree)) : Option GitTree :=
  (cs.find? (fun p => p.1 == k)).map Prod.snd

/-- Walker filepath of a child: the root is `"."` and its children are bare
names; deeper paths are slash-joined, as in `git.walk`'s `filepath`. -/
def childPath (parent k : String) : String :=
  if parent = "." then k else parent ++ "/" ++ k

/-- The `map` callback of `diff` (source lines 332–367): skip the root path
and directory nodes; otherwise classify by the two (optional) content
identities through the source's sequence of `if` statements and emit
`{ path: "/" + filepath, type }`.  The source logs the both-absent anomaly
but still falls through to the `return`. -/
def diffMap (filepath : String) (a b : Option GitTree) : Option DiffResult :=
  if filepath = "." then none
  else if isTreeB a || isTreeB b then none
  else
    let aoid := oidOf a
    let boid := oidOf b
    let t1 := "equal"
    let t2 := if aoid ≠ boid then "modify" else t1
    let t3 := if aoid = none then "remove" else t2
    let t4 := if boid = none then "add" else t3
    some { path := "/" ++ filepath, type := t4 }

/-- Size of an optional tree, for termination of the walk. -/
def osize : Option GitTree → Nat
  | none => 0
  | some t => tsize t

theorem lookupChild_tsize_lt {k : String} {cs : List (String × GitTree)}
    {t' : GitTree} (h : lookupChild k cs = some t') :
    tsize t' < tsize (GitTree.dir cs) := by
  induction cs with
  | nil => simp [lookupChild] at h
  | cons p rest ih =>
      rw [lookupChild, List.find?_cons] at h
      by_cases hp : (p.1 == k) = true
      · rw [hp] at h
        simp only [Option.map_some'] at h
        have ht : t' = p.2 := by injection h with h; exact h.symm
        subst ht
        simp only [tsize]
        omega
      · rw [Bool.not_eq_true] at hp
        rw [hp] at h
        have := ih h
        simp only [tsize] at *
        omega

theorem osize_lookup_le (k : String) (x : Option GitTree) :
    osize (lookupChild k (childrenOf x)) ≤ osize x := by
  cases hl : lookupChild k (childrenOf x) with
  | none => simp [osize]
  | some t' =>
      match x with
      | none => simp [childrenOf, lookupChild] at hl
      | some (GitTree.leaf o) => simp [childrenOf, lookupChild] at hl
      | some (GitTree.dir cs) =>
          have := lookupChild_tsize_lt (show lookupChild k cs = some t' from hl)
          simp only [osize]
          omega

theorem osize_lookup_lt {k : String} {x : Option GitTree}
    (h : (lookupChild k (childrenOf x)).isSome) :
    osize (lookupChild k (childrenOf x)) < osize x := by
  cases hl : lookupChild k (childrenOf x) with
  | none => rw [hl] at h; simp at h
  | some t' =>
      match x with
      | none => simp [childrenOf, lookupChild] at hl
      | some (GitTree.leaf o) => simp [childrenOf, lookupChild] at hl
      | some (GitTree.dir cs) =>
          have := lookupChild_tsize_lt (show lookupChild k cs = some t' from hl)
          simp only [osize]
          omega

theorem lookupChild_isSome_of_mem_keys {k : String} {cs : List (String × GitTree)}
    (h : k ∈ keysOf cs) : (lookupChild k cs).isSome := by
  unfold keysOf at h
  rcases List.mem_map.mp h with ⟨pr, hpr, hk⟩
  have : (cs.find? (fun p => p.1 == k)).isSome := by
    rw [List.find?_isSome]
    exact ⟨pr, hpr, by simp [hk]⟩
  unfold lookupChild
  simpa using this

theorem unionKeys_isSome {k : String} {ca cb : List (String × GitTree)}
    (h : k ∈ unionKeys ca cb) :
    (lookupChild k ca).isSome ∨ (lookupChild k cb).isSome := by
  unfold unionKeys at h
  rcases List.mem_append.mp h with h | h
  · exact Or.inl (lookupChild_isSome_of_mem_keys h)
  · exact Or.inr (lookupChild_isSome_of_mem_keys (List.mem_of_mem_filter h))

/-- The synchronized recursive walk of `git.walk` over two optional trees:
collect what the `map` callback emits at this node, then recurse into the
union of child names, resolving each name on both sides (an absent side
behaves as an empty subtree). -/
def walkNode (path : String) (a b : Option GitTree) : List DiffResult :=
  (diffMap path a b).toList ++
    ((unionKeys (childrenOf a) (childrenOf b)).attach.map
      (fun k => walkNode (childPath path k.1)
        (lookupChild k.1 (childrenOf a)) (lookupChild k.1 (childrenOf b)))).flatten
termination_by osize a + osize b
decreasing_by
  rcases unionKeys_isSome k.2 with h | h
  · exact Nat.add_lt_add_of_lt_of_le (osize_lookup_lt h) (osize_lookup_le _ _)
  · exact Nat.add_lt_add_of_le_of_lt (osize_lookup_le _ _) (osize_lookup_lt h)

theorem walkNode_eq (path : String) (a b : Option GitTree) :
    walkNode path a b =
      (diffMap path a b).toList ++
        ((unionKeys (childrenOf a) (childrenOf b)).map
          (fun k => walkNode (childPath path k)
            (lookupChild k (childrenOf a)) (lookupChild k (childrenOf b)))).flatten := by
  rw [walkNode]
  congr 1
  congr 1
  exact List.attach_map_coe (unionKeys (childrenOf a) (childrenOf b))
    (fun k => walkNode (childPath path k)
      (lookupChild k (childrenOf a)) (lookupChild k (childrenOf b)))

/-- Fuel-indexed mirror of `walkNode`, structurally recursive on the fuel so
that concrete runs reduce inside the kernel.  `walkNodeF_eq_walkNode` shows
it agrees with `walkNode` once the fuel exceeds the tree sizes. -/
def walkNodeF : Nat → String → Option GitTree → Option GitTree → List DiffResult
  | 0, _, _, _ => []
  | n + 1, path, a, b =>
      (diffMap path a b).toList ++
        ((unionKeys (childrenOf a) (childrenOf b)).map
          (fun k => walkNodeF n (childPath path k)
            (lookupChild k (childrenOf a)) (lookupChild k (childrenOf b)))).flatten

theorem walkNodeF_eq_walkNode (n : Nat) :
    ∀ (a b : Option GitTree), osize a + osize b < n →
      ∀ path, walkNodeF n path a b = walkNode path a b := by
  induction n with
  | zero => intro a b h; omega
  | succ n ih =>
      intro a b h path
      rw [walkNodeF, walkNode_eq]
      congr 1
      congr 1
      apply List.map_congr_left
      intro k hk
      apply ih
      rcases unionKeys_isSome hk with hs | hs
      · have h1 := osize_lookup_lt hs
        have h2 := osize_lookup_le k b
        omega
      · have h1 := osize_lookup_le k a
        have h2 := osize_lookup_lt hs
        omega

/-- `diff(commitHash1, commitHash2)` (source lines 327–369): walk the two
trees rooted at the given refs, starting at the root filepath `"."`.  The
external object/tree provider (`git.TREE({ ref })`) is modelled by the
`resolve` parameter mapping a commit ref to its tree. -/
def diff (resolve : String → GitTree) (commitHash1 commitHash2 : String) :
    List DiffResult :=
  walkNode "." (some (resolve commitHash1)) (some (resolve commitHash2))

/-- `getChangedFiles` (source lines 322–324): the length of `diff`'s output
after dropping entries whose `type` is `"equal"`. -/
def getChangedFiles (resolve : String → GitTree) (commitHash1 commitHash2 : String) :
    Nat :=
  ((diff resolve commitHash1 commitHash2).filter (fun file => file.type != "equal")).length

/-- Resolve a path, given as a list of name segments, inside an optional
tree by repeated child lookup. -/
def lookupPath : Option GitTree → List String → Option GitTree
  | x, [] => x
  | x, k :: rest => lookupPath (lookupChild k (childrenOf x)) rest

/-- Modelled from the spec's words for the refinement claim C5:
`countChangedFiles(A, B)` is "the length of the list obtained by filtering
diffTrees(A, B) to entries whose kind is not Equal". -/
def countChangedFilesSpec (resolve : String → GitTree)
    (refA refB : String) : Nat :=
  (diff resolve refA refB).countP (fun e => decide (e.type ≠ "equal"))

/-- The repository facts that determine `commitAll`'s return value: the
commit found by `getCurrentCommit` before the staging/commit sequence and
the one found after it (the source dereferences `commitAfter.oid`
unconditionally). -/
structure CommitSnapshot where
  commitBefore : Option ReadCommitResult
  commitAfter : ReadCommitResult

/-- Return-value logic of `commitAll` (source lines 60–94): if the repo had
no commit before the call (`commitBefore` is `undefined`) the method
returns `undefined`; otherwise it returns
`getChangedFiles(commitBefore.oid, commitAfter.oid)`. -/
def commitAll (s : CommitSnapshot) (resolve : String → GitTree) : Option Nat :=
  match s.commitBefore with
  | some commitBefore =>
      some (getChangedFiles resolve commitBefore.oid s.commitAfter.oid)
  | none => none

/-- The listed table of C2 / §4.1, as key–code pairs. -/
def statusTable : List (String × String) :=
  [("000", ""), ("003", "AD"), ("020", "??"), ("022", "A"), ("023", "AM"),
   ("100", "D "), ("101", " D"), ("103", "MD"), ("110", "D ??"), ("111", ""),
   ("120", "D ??"), ("121", " M"), ("122", "M "), ("123", "MM")]

theorem tsize_pos (t : GitTree) : 1 ≤ tsize t := by
  cases t with
  | leaf o => simp [tsize]
  | dir cs =>
      cases cs with
      | nil => simp [tsize]
      | cons kc rest => simp only [tsize]; omega

theorem lookupPath_none : ∀ segs : List String, lookupPath none segs = none := by
  intro segs
  induction segs with
  | nil => rfl
  | cons k rest ih =>
      rw [lookupPath]
      simpa [childrenOf, lookupChild] using ih

theorem keys_mem_of_lookupChild {k : String} {cs : List (String × GitTree)}
    {t' : GitTree} (h : lookupChild k cs = some t') : k ∈ keysOf cs := by
  unfold lookupChild at h
  rcases Option.map_eq_some'.mp h with ⟨pr, hfind, _⟩
  have hmem : pr ∈ cs := List.mem_of_find?_eq_some hfind
  have hk := List.find?_some hfind
  rw [beq_iff_eq] at hk
  exact hk ▸ List.mem_map.mpr ⟨pr, hmem, rfl⟩

theorem walk_self_all_equal (n : Nat) :
    ∀ t : GitTree, tsize t ≤ n → ∀ path e,
      e ∈ walkNode path (some t) (some t) → e.type = "equal" := by
  induction n with
  | zero =>
      intro t ht
      have := tsize_pos t
      omega
  | succ n ih =>
      intro t ht path e he
      rw [walkNode_eq] at he
      rcases List.mem_append.mp he with he | he
      · cases t with
        | leaf o =>
            by_cases hp : path = "."
            · simp [diffMap, hp] at he
            · simp [diffMap, hp, isTreeB, oidOf] at he
              simp [he]
        | dir cs => simp [diffMap, isTreeB] at he
      · rcases List.mem_flatten.mp he with ⟨l, hl, hel⟩
        rcases List.mem_map.mp hl with ⟨k, hk, rfl⟩
        cases hlk : lookupChild k (childrenOf (some t)) with
        | none =>
            rcases unionKeys_isSome hk with hs | hs <;>
              (rw [hlk] at hs; simp at hs)
        | some t' =>
            rw [hlk] at hel
            have hlt : tsize t' < tsize t := by
              cases t with
              | leaf o => simp [childrenOf, lookupChild] at hlk
              | dir cs =>
                  have hlk' : lookupChild k cs = some t' := by
                    simpa [childrenOf] using hlk
                  exact lookupChild_tsize_lt hlk'
            exact ih t' (by omega) _ e hel

theorem walk_self_leaf_mem :
    ∀ segs : List String, ∀ (t : GitTree) (path o : String),
      lookupPath (some t) segs = some (GitTree.leaf o) →
      List.foldl childPath path segs ≠ "." →
      ({ path := "/" ++ List.foldl childPath path segs, type := "equal" } : DiffResult) ∈
        walkNode path (some t) (some t) := by
  intro segs
  induction segs with
  | nil =>
      intro t path o hlook hne
      rw [lookupPath] at hlook
      injection hlook with hlook
      subst hlook
      rw [walkNode_eq]
      apply List.mem_append.mpr
      left
      simp only [List.foldl] at hne ⊢
      simp [diffMap, hne, isTreeB, oidOf]
  | cons k rest ih =>
      intro t path o hlook hne
      rw [lookupPath] at hlook
      cases hlk : lookupChild k (childrenOf (some t)) with
      | none =>
          rw [hlk, lookupPath_none] at hlook
          cases hlook
      | some t' =>
          rw [hlk] at hlook
          have hkmem : k ∈ unionKeys (childrenOf (some t)) (childrenOf (some t)) := by
            apply List.mem_append.mpr
            exact Or.inl (keys_mem_of_lookupChild hlk)
          rw [walkNode_eq]
          apply List.mem_append.mpr
          right
          apply List.mem_flatten.mpr
          refine ⟨walkNode (childPath path k) (lookupChild k (childrenOf (some t)))
            (lookupChild k (childrenOf (some t))), List.mem_map.mpr ⟨k, hkmem, rfl⟩, ?_⟩
          rw [hlk]
          have hr := ih t' (childPath path k) o hlook (by simpa using hne)
          simpa using hr

/-- C7: diffing a ref against itself yields only `"equal"` entries (hence
zero add/remove/modify entries), and yields an `"equal"` entry for every
leaf path of the tree (any segment path resolving to a leaf whose rendered
walker path is not the root `"."`). -/
theorem diff_self_only_equal (resolve : String → GitTree) (X : String) :
    (∀ e ∈ diff resolve X X, e.type = "equal") ∧
    (∀ (segs : List String) (o : String),
      lookupPath (some (resolve X)) segs = some (GitTree.leaf o) →
      List.foldl childPath "." segs ≠ "." →
      ({ path := "/" ++ List.foldl childPath "." segs, type := "equal" } : DiffResult) ∈
        diff resolve X X) := by
  constructor
  · intro e he
    exact walk_self_all_equal (tsize (resolve X)) (resolve X) le_rfl "." e he
  · intro segs o h1 h2
    exact walk_self_leaf_mem segs (resolve X) "." o h1 h2

theorem diff_self_only_equal_witness :
    lookupPath (some (GitTree.dir [("a", GitTree.leaf "h")])) ["a"] =
      some (GitTree.leaf "h") ∧
    List.foldl childPath "." ["a"] ≠ "." ∧
    ({ path := "/" ++ List.foldl childPath "." ["a"], type := "equal" } : DiffResult) ∈
      diff (fun _ => GitTree.dir [("a", GitTree.leaf "h")]) "x" "x" :=
  ⟨rfl, by decide,
   (diff_self_only_equal (fun _ => GitTree.dir [("a", GitTree.leaf "h")]) "x").2
     ["a"] "h" rfl (by decide)⟩

theorem diffMap_some_shape {path : String} {a b : Option GitTree} {e : DiffResult}
    (h : diffMap path a b = some e) :
    path ≠ "." ∧ isTreeB a = false ∧ isTreeB b = false ∧ e.path = "/" ++ path := by
  unfold diffMap at h
  by_cases hp : path = "."
  · simp [hp] at h
  · rw [if_neg hp] at h
    by_cases ht : (isTreeB a || isTreeB b) = true
    · rw [if_pos ht] at h
      cases h
    · rw [if_neg ht] at h
      rw [Bool.or_eq_true] at ht
      push_neg at ht
      simp only [Option.some.injEq] at h
      refine ⟨hp, by simpa using ht.1, by simpa using ht.2, ?_⟩
      rw [← h]

theorem walk_entry_shape (n : Nat) :
    ∀ (a b : Option GitTree), osize a + osize b ≤ n →
      ∀ path e, e ∈ walkNode path a b →
        ∃ segs : List String,
          e.path = "/" ++ List.foldl childPath path segs ∧
          List.foldl childPath path segs ≠ "." ∧
          isTreeB (lookupPath a segs) = false ∧
          isTreeB (lookupPath b segs) = false := by
  induction n with
  | zero =>
      intro a b hsz path e he
      rw [walkNode_eq] at he
      rcases List.mem_append.mp he with he | he
      · cases hd : diffMap path a b with
        | none => rw [hd] at he; cases he
        | some e' =>
            rw [hd] at he
            obtain ⟨hp, ha, hb, hpath⟩ := diffMap_some_shape hd
            have : e = e' := by simpa using he
            subst this
            exact ⟨[], by simpa using hpath, by simpa using hp,
              by simpa [lookupPath] using ha, by simpa [lookupPath] using hb⟩
      · rcases List.mem_flatten.mp he with ⟨l, hl, _⟩
        rcases List.mem_map.mp hl with ⟨k, hk, rfl⟩
        exfalso
        rcases unionKeys_isSome hk with hs | hs
        · have := osize_lookup_lt hs
          omega
        · have := osize_lookup_lt hs
          omega
  | succ n ih =>
      intro a b hsz path e he
      rw [walkNode_eq] at he
      rcases List.mem_append.mp he with he | he
      · cases hd : diffMap path a b with
        | none => rw [hd] at he; cases he
        | some e' =>
            rw [hd] at he
            obtain ⟨hp, ha, hb, hpath⟩ := diffMap_some_shape hd
            have : e = e' := by simpa using he
            subst this
            exact ⟨[], by simpa using hpath, by simpa using hp,
              by simpa [lookupPath] using ha, by simpa [lookupPath] using hb⟩
      · rcases List.mem_flatten.mp he with ⟨l, hl, hel⟩
        rcases List.mem_map.mp hl with ⟨k, hk, rfl⟩
        have hchild : osize (lookupChild k (childrenOf a)) +
            osize (lookupChild k (childrenOf b)) ≤ n := by
          rcases unionKeys_isSome hk with hs | hs
          · have h1 := osize_lookup_lt hs
            have h2 := osize_lookup_le k b
            omega
          · have h1 := osize_lookup_le k a
            have h2 := osize_lookup_lt hs
            omega
        obtain ⟨segs, h1, h2, h3, h4⟩ := ih _ _ hchild (childPath path k) e hel
        refine ⟨k :: segs, ?_, ?_, ?_, ?_⟩
        · simpa using h1
        · simpa using h2
        · rw [lookupPath]; exact h3
        · rw [lookupPath]; exact h4

/-- C8: every entry of `diff refA refB` corresponds to a non-root segment
path at which neither side is a directory — directory nodes and the root
path itself never produce entries. -/
theorem diff_only_leaf_paths (resolve : String → GitTree) (refA refB : String)
    (e : DiffResult) (he : e ∈ diff resolve refA refB) :
    ∃ segs : List String, segs ≠ [] ∧
      e.path = "/" ++ List.foldl childPath "." segs ∧
      isTreeB (lookupPath (some (resolve refA)) segs) = false ∧
      isTreeB (lookupPath (some (resolve refB)) segs) = false := by
  obtain ⟨segs, h1, h2, h3, h4⟩ :=
    walk_entry_shape (osize (some (resolve refA)) + osize (some (resolve refB)))
      _ _ le_rfl "." e he
  refine ⟨segs, ?_, h1, h3, h4⟩
  intro hnil
  subst hnil
  simp [List.foldl] at h2

theorem diff_only_leaf_paths_witness :
    ∃ segs : List String, segs ≠ [] ∧
      ({ path := "/f", type := "equal" } : DiffResult).path =
        "/" ++ List.foldl childPath "." segs ∧
      isTreeB (lookupPath (some (GitTree.dir [("f", GitTree.leaf "1")])) segs) = false ∧
      isTreeB (lookupPath (some (GitTree.dir [("f", GitTree.leaf "1")])) segs) = false := by
  have hmem : ({ path := "/f", type := "equal" } : DiffResult) ∈
      diff (fun _ => GitTree.dir [("f", GitTree.leaf "1")]) "x" "x" := by
    have h := walkNodeF_eq_walkNode 7 (some (GitTree.dir [("f", GitTree.leaf "1")]))
      (some (GitTree.dir [("f", GitTree.leaf "1")])) (by simp [osize, tsize]) "."
    show _ ∈ walkNode "." (some (GitTree.dir [("f", GitTree.leaf "1")]))
      (some (GitTree.dir [("f", GitTree.leaf "1")]))
    rw [← h]
    decide
  exact diff_only_leaf_paths (fun _ => GitTree.dir [("f", GitTree.leaf "1")]) "x" "x"
    { path := "/f", type := "equal" } hmem

/-- C2: every key listed in the fixed table maps to exactly the listed
code, and `indexes` sends no key to any code outside the listed pairs. -/
theorem indexes_table_exact :
    (∀ kc ∈ statusTable, indexes kc.1 = some kc.2) ∧
    (∀ k c, indexes k = some c → (k, c) ∈ statusTable) := by
  refine ⟨by decide, ?_⟩
  intro k c h
  unfold indexes at h
  split at h <;> simp_all [statusTable]

theorem indexes_table_exact_witness :
    indexes "121" = some " M" ∧ ("121", " M") ∈ statusTable :=
  ⟨indexes_table_exact.1 ("121", " M") (by decide),
   indexes_table_exact.2 "121" " M" rfl⟩

/-- C3 counterexample: classifying the status triple `102`, which is not in
the fixed table, does not fail with any error — `getFileStatusResult`
returns a result whose code is absent (`undefined`). -/
theorem unknown_key_counterexample :
    getFileStatusResult { file := "f", head := 1, workdir := 0, stage := 2 } =
      { index := none, path := "f" } := by decide

/-- C3 (amended): classifying a triple whose 3-digit key is not in the fixed
table silently yields a `FileStatusResult` with an absent (`undefined`)
code; no `UnknownStateError` exists in the code and no error is raised. -/
theorem unknown_key_yields_absent_code (row : StatusRow)
    (h : indexes (statusKey row) = none) :
    getFileStatusResult row = { index := none, path := row.file } := by
  simp [getFileStatusResult, h]

theorem unknown_key_yields_absent_code_witness :
    indexes (statusKey { file := "f", head := 1, workdir := 0, stage := 2 }) = none ∧
    getFileStatusResult { file := "f", head := 1, workdir := 0, stage := 2 } =
      { index := none, path := "f" } :=
  ⟨by decide, unknown_key_yields_absent_code _ (by decide)⟩

/-- C4: `status` puts a path into `changed` iff some input row carries that
path with differing HEAD and WORKDIR digits, and into `staged` iff some
input row carries it with STAGE digit 2 or 3. -/
theorem status_changed_staged_exact (rows : List StatusRow) (p : String) :
    ((∃ fr ∈ (status rows).changed, fr.path = p) ↔
      ∃ row ∈ rows, row.file = p ∧ row.head ≠ row.workdir) ∧
    ((p ∈ (status rows).staged) ↔
      ∃ row ∈ rows, row.file = p ∧ (row.stage = 2 ∨ row.stage = 3)) := by
  constructor
  · simp only [status, List.mem_map, List.mem_filter, bne_iff_ne]
    constructor
    · rintro ⟨fr, ⟨row, ⟨hrow, hne⟩, hfr⟩, hp⟩
      exact ⟨row, hrow, by simp [← hfr, getFileStatusResult] at hp; simp [hp], hne⟩
    · rintro ⟨row, hrow, hfile, hne⟩
      exact ⟨getFileStatusResult row, ⟨row, ⟨hrow, hne⟩, rfl⟩, by simp [getFileStatusResult, hfile]⟩
  · simp only [status, List.mem_map, List.mem_filter, Bool.or_eq_true, beq_iff_eq]
    constructor
    · rintro ⟨row, ⟨hrow, hst⟩, hfile⟩
      exact ⟨row, hrow, hfile, by omega⟩
    · rintro ⟨row, hrow, hfile, hst⟩
      exact ⟨row, ⟨hrow, by omega⟩, hfile⟩

/-- C5: `getChangedFiles` equals the spec-side count — the length of
`diff`'s output filtered to entries whose kind is not `"equal"` — computed
from the same single `diff` traversal. -/
theorem getChangedFiles_eq_countSpec (resolve : String → GitTree)
    (refA refB : String) :
    getChangedFiles resolve refA refB = countChangedFilesSpec resolve refA refB := by
  unfold getChangedFiles countChangedFilesSpec
  rw [List.countP_eq_length_filter]
  have hfun : (fun (file : DiffResult) => file.type != "equal") =
      (fun (e : DiffResult) => decide (e.type ≠ "equal")) := by
    funext e
    by_cases h : e.type = "equal" <;> simp [h]
  rw [hfun]

/-- C1 counterexample: in `diff A B`, a leaf present only on side A comes
out as `"add"` (the claim says `Remove`), and a leaf present only on side B
comes out as `"remove"` (the claim says `Add`). -/
theorem single_side_counterexample :
    diff (fun r => if r = "A" then GitTree.dir [("f", GitTree.leaf "1")] else GitTree.dir [])
        "A" "B" = [{ path := "/f", type := "add" }] ∧
    diff (fun r => if r = "A" then GitTree.dir [("f", GitTree.leaf "1")] else GitTree.dir [])
        "B" "A" = [{ path := "/f", type := "remove" }] ∧
    ("add" : String) ≠ "remove" := by
  have h1 := walkNodeF_eq_walkNode 7 (some (GitTree.dir [("f", GitTree.leaf "1")]))
    (some (GitTree.dir [])) (by simp [osize, tsize]) "."
  have h2 := walkNodeF_eq_walkNode 7 (some (GitTree.dir []))
    (some (GitTree.dir [("f", GitTree.leaf "1")])) (by simp [osize, tsize]) "."
  refine ⟨?_, ?_, by decide⟩
  · show walkNode "." (some (GitTree.dir [("f", GitTree.leaf "1")])) (some (GitTree.dir [])) = _
    rw [← h1]; decide
  · show walkNode "." (some (GitTree.dir [])) (some (GitTree.dir [("f", GitTree.leaf "1")])) = _
    rw [← h2]; decide

/-- C1 (amended): at a non-root leaf path where exactly one side has a
content identity, the emitted entry has kind `"add"` when only side A is
present and kind `"remove"` when only side B is present — the labels are
the reverse of the claimed orientation. -/
theorem diffMap_single_side (path o : String) (h : path ≠ ".") :
    diffMap path (some (GitTree.leaf o)) none =
      some { path := "/" ++ path, type := "add" } ∧
    diffMap path none (some (GitTree.leaf o)) =
      some { path := "/" ++ path, type := "remove" } := by
  constructor <;> simp [diffMap, h, isTreeB, oidOf]

theorem diffMap_single_side_witness :
    diffMap "f" (some (GitTree.leaf "1")) none =
      some { path := "/f", type := "add" } ∧
    diffMap "f" none (some (GitTree.leaf "1")) =
      some { path := "/f", type := "remove" } :=
  diffMap_single_side "f" "1" (by decide)

/-- C6 counterexample: at a non-root leaf path with neither side present,
the `map` callback still emits an entry (of kind `"add"`), rather than
emitting nothing. -/
theorem both_absent_counterexample :
    diffMap "f" none none = some { path := "/f", type := "add" } := by decide

/-- C6 (amended): when the walk visits a non-root leaf path for which
neither side has a content identity, the anomaly is only logged — the
callback still falls through and emits an entry, whose kind is `"add"`
because the `Boid === undefined` rule fires last. -/
theorem diffMap_both_absent (path : String) (h : path ≠ ".") :
    diffMap path none none = some { path := "/" ++ path, type := "add" } := by
  simp [diffMap, h, isTreeB, oidOf]

theorem diffMap_both_absent_witness :
    diffMap "g" none none = some { path := "/g", type := "add" } :=
  diffMap_both_absent "g" (by decide)

/-- C9: `getCurrentCommit` returns the newest commit of the `git.log`
result when the log succeeds and is nonempty, returns the distinct
"no commit yet" value (`.ok none`, not an error) on a `NotFoundError` for
the current branch's head ref, and propagates every other error. -/
theorem getCurrentCommit_spec (logResult : Except GitError (List ReadCommitResult))
    (br : String) :
    (∀ c rest, logResult = .ok (c :: rest) →
      getCurrentCommit logResult br = .ok (some c)) ∧
    (∀ e, logResult = .error e → e.code = "NotFoundError" →
      e.what = "refs/heads/" ++ br → getCurrentCommit logResult br = .ok none) ∧
    (∀ e, logResult = .error e →
      ¬(e.code = "NotFoundError" ∧ e.what = "refs/heads/" ++ br) →
      getCurrentCommit logResult br = .error e) := by
  refine ⟨?_, ?_, ?_⟩
  · intro c rest h; subst h; rfl
  · intro e h hc hw; subst h; simp [getCurrentCommit, hc, hw]
  · intro e h hne; subst h; simp [getCurrentCommit, hne]

theorem getCurrentCommit_spec_witness :
    getCurrentCommit (.ok [{ oid := "c1" }]) "main" = .ok (some { oid := "c1" }) ∧
    getCurrentCommit (.error { code := "NotFoundError", what := "refs/heads/main" })
      "main" = .ok none ∧
    getCurrentCommit (.error { code := "HttpError", what := "" }) "main" =
      .error { code := "HttpError", what := "" } :=
  ⟨(getCurrentCommit_spec _ "main").1 { oid := "c1" } [] rfl,
   (getCurrentCommit_spec _ "main").2.1 { code := "NotFoundError", what := "refs/heads/main" }
     rfl rfl (by decide),
   (getCurrentCommit_spec _ "main").2.2 { code := "HttpError", what := "" }
     rfl (by decide)⟩

/-- C10: `commitAll` returns `undefined` when no commit existed before the
call, and otherwise the changed-file count between the commit before and
the commit after the operation. -/
theorem commitAll_count_spec (s : CommitSnapshot) (resolve : String → GitTree) :
    (s.commitBefore = none → commitAll s resolve = none) ∧
    (∀ c, s.commitBefore = some c →
      commitAll s resolve =
        some (getChangedFiles resolve c.oid s.commitAfter.oid)) := by
  constructor
  · intro h; simp [commitAll, h]
  · intro c h; simp [commitAll, h]

theorem commitAll_count_spec_witness :
    commitAll { commitBefore := none, commitAfter := { oid := "b" } }
      (fun _ => GitTree.dir []) = none ∧
    commitAll { commitBefore := some { oid := "a" }, commitAfter := { oid := "b" } }
      (fun _ => GitTree.dir []) =
      some (getChangedFiles (fun _ => GitTree.dir []) "a" "b") :=
  ⟨(commitAll_count_spec _ _).1 rfl,
   (commitAll_count_spec _ _).2 { oid := "a" } rfl⟩

end IsomorphicGit
